import Mathlib

/-!
Verification of the pattern-matching library in util/parser.c (token-table
matcher, placeholder sub-matcher, numeric extraction, wildcard matching and
string materialization).  C strings are embedded as NUL-free lists of
characters, substring references as the list of spanned characters, machine
integers as Int with the LP64 bounds made explicit, and fallible allocation
as an explicit Boolean argument.  The two loops of the source (the pattern
scanner of match_one and the backtracking loop of match_wildcard) are
embedded as fuel-indexed step functions; each iteration of the C loops
consumes at least one character, and sufficiency of the stated fuel bounds
is proved below.
-/

/-- Modelled from the spec: util/parser.h is not part of the sources here, so
the capacity constant MAX_OPT_ARGS (the fixed maximum number of placeholders
a pattern may record, a constant the spec gives as for example 6) is taken
from the spec. -/
def MAX_OPT_ARGS : Nat := 6

/-- Linux errno value for ENOMEM. -/
def ENOMEM : Int := 12

/-- Linux errno value for EINVAL. -/
def EINVAL : Int := 22

/-- Linux errno value for ERANGE. -/
def ERANGE : Int := 34

/-- Largest value of a 32-bit signed int (limits.h INT_MAX). -/
def INT_MAX : Int := 2147483647

/-- Smallest value of a 32-bit signed int (limits.h INT_MIN). -/
def INT_MIN : Int := -2147483648

/-- Largest value of a 64-bit signed long (limits.h LONG_MAX, LP64). -/
def LONG_MAX : Int := 9223372036854775807

/-- Smallest value of a 64-bit signed long (limits.h LONG_MIN, LP64). -/
def LONG_MIN : Int := -9223372036854775808

/-- The NUL terminator byte. -/
def nulChar : Char := Char.ofNat 0

/-- Embedding of substring_t: a span of characters cut out of the subject
buffer (the characters between the from and to pointers). -/
structure substring_t where
  chars : List Char
deriving DecidableEq, Repr

/-- C isspace in the C locale: space, tab, newline, vertical tab, form feed,
carriage return. -/
def isSpaceB (c : Char) : Bool :=
  c = ' ' || c = '\t' || c = '\n' || c = Char.ofNat 11 || c = Char.ofNat 12 || c = '\r'

/-- Numeric value of a character as a digit, letters counting from ten,
as strtol interprets digits. -/
def hexVal (c : Char) : Option Nat :=
  if '0' ≤ c ∧ c ≤ '9' then some (c.toNat - '0'.toNat)
  else if 'a' ≤ c ∧ c ≤ 'z' then some (c.toNat - 'a'.toNat + 10)
  else if 'A' ≤ c ∧ c ≤ 'Z' then some (c.toNat - 'A'.toNat + 10)
  else none

/-- Whether a character is a valid digit in the given base. -/
def isBaseDigit (base : Nat) (c : Char) : Bool :=
  match hexVal c with
  | some v => v < base
  | none => false

/-- Value of a run of decimal digits, as strtoul base 10 computes it for the
field width of a placeholder. -/
def digitsToNat (ds : List Char) : Nat :=
  ds.foldl (fun a c => a * 10 + (c.toNat - '0'.toNat)) 0

/-- Whether the text starts with a hexadecimal 0x or 0X prefix that is
followed by a hex digit (only then does strtol consume the prefix). -/
def hasHexPrefix : List Char → Bool
  | '0' :: x :: c :: _ => (x = 'x' || x = 'X') && isBaseDigit 16 c
  | _ => false

/-- Result of the C strtol family on a NUL-terminated text: the converted
value (clamped to the long range on overflow) and the number of characters
consumed, that is the distance from the text start to the end pointer; zero
characters are consumed when no conversion could be performed. -/
structure strtol_result where
  val : Int
  consumed : Nat
deriving DecidableEq, Repr

/-- Embedding of strtol(cs, endp, base) for base 0, 8, 10 or 16: skip
whitespace, take an optional sign, resolve base 0 from a 0x prefix or a
leading zero, consume the 0x prefix in base 16, then take the longest run of
digits of the effective base.  strtoul consumes exactly the same characters,
so this one function also gives the spans of the numeric placeholders. -/
def strtol (cs : List Char) (base : Nat) : strtol_result :=
  let r1 := cs.dropWhile isSpaceB
  let signed : Bool × List Char :=
    match r1 with
    | '-' :: t => (true, t)
    | '+' :: t => (false, t)
    | _ => (false, r1)
  let r2 := signed.2
  let br : Nat × List Char :=
    if base = 16 then (16, if hasHexPrefix r2 then r2.drop 2 else r2)
    else if base = 0 then
      if hasHexPrefix r2 then (16, r2.drop 2)
      else if r2.head? = some '0' then (8, r2)
      else (10, r2)
    else (base, r2)
  let r3 := br.2
  let ds := r3.takeWhile (isBaseDigit br.1)
  if ds.isEmpty then ⟨0, 0⟩
  else
    let m : Nat := ds.foldl (fun a c => a * br.1 + ((hexVal c).getD 0)) 0
    let v : Int := if signed.1 then -(m : Int) else (m : Int)
    let v' : Int := if v < LONG_MIN then LONG_MIN else if LONG_MAX < v then LONG_MAX else v
    ⟨v', cs.length - (r3.length - ds.length)⟩

/-- Index of the first occurrence of a character in a list, as strchr finds
it (none standing for the NULL return). -/
def strchrIdx (l : List Char) (c : Char) : Option Nat :=
  match l with
  | [] => none
  | x :: xs => if x = c then some 0 else (strchrIdx xs c).map (· + 1)

/-- Case s of the switch in match_one: the string placeholder.  Fails when
the remaining subject is empty; otherwise spans from the cursor for the
parsed width clamped down to the remaining length, or for the whole
remaining length when no width was given.  Returns the recorded span and the
remaining subject after it. -/
def stepString (w : Option Nat) (s : List Char) : Option (substring_t × List Char) :=
  let str_len := s.length
  if str_len = 0 then none
  else
    let len := match w with
      | none => str_len
      | some ww => if str_len < ww then str_len else ww
    some (⟨s.take len⟩, s.drop len)

/-- Cases d, u, o, x of the switch in match_one: a numeric placeholder spans
the characters consumed by strtol or strtoul at the cursor in the
corresponding base, and fails when zero characters are consumed. -/
def stepNum (base : Nat) (s : List Char) : Option (substring_t × List Char) :=
  let n := (strtol s base).consumed
  if n = 0 then none else some (⟨s.take n⟩, s.drop n)

/-- Fuel-indexed embedding of the scanning loop of match_one.  The Boolean
is the match result; the list records each write args at index argc gets the
span, in the order the writes happen.  Each loop iteration consumes at least
one pattern character, so fuel equal to the pattern length plus one is
enough (the zero-fuel row is never reached from match_one).  The digit test
and the escaped-percent test of the source are mutually exclusive, so the
width parse is placed after the escape test without changing behavior. -/
def matchOneF : Nat → List Char → List Char → Nat → Bool × List (Nat × substring_t)
  | 0, _, _, _ => (false, [])
  | fuel + 1, s, p, argc =>
    match strchrIdx p '%' with
    | none => (decide (p = s), [])
    | some k =>
      if (p.take k).isPrefixOf s then
        let s1 := s.drop k
        let p1 := p.drop (k + 1)
        if p1.head? = some '%' then
          match s1 with
          | '%' :: s2 => matchOneF fuel s2 (p1.drop 1) argc
          | _ => (false, [])
        else
          let ds := p1.takeWhile Char.isDigit
          let w : Option Nat := if ds.isEmpty then none else some (digitsToNat ds)
          let p2 := p1.drop ds.length
          if MAX_OPT_ARGS ≤ argc then (false, [])
          else
            match p2 with
            | 's' :: p3 =>
              match stepString w s1 with
              | none => (false, [])
              | some (sp, s2) =>
                let r := matchOneF fuel s2 p3 (argc + 1)
                (r.1, (argc, sp) :: r.2)
            | 'd' :: p3 =>
              match stepNum 0 s1 with
              | none => (false, [])
              | some (sp, s2) =>
                let r := matchOneF fuel s2 p3 (argc + 1)
                (r.1, (argc, sp) :: r.2)
            | 'u' :: p3 =>
              match stepNum 0 s1 with
              | none => (false, [])
              | some (sp, s2) =>
                let r := matchOneF fuel s2 p3 (argc + 1)
                (r.1, (argc, sp) :: r.2)
            | 'o' :: p3 =>
              match stepNum 8 s1 with
              | none => (false, [])
              | some (sp, s2) =>
                let r := matchOneF fuel s2 p3 (argc + 1)
                (r.1, (argc, sp) :: r.2)
            | 'x' :: p3 =>
              match stepNum 16 s1 with
              | none => (false, [])
              | some (sp, s2) =>
                let r := matchOneF fuel s2 p3 (argc + 1)
                (r.1, (argc, sp) :: r.2)
            | _ => (false, [])
      else (false, [])

/-- Embedding of match_one: a NULL pattern matches unconditionally with no
writes; otherwise run the scanning loop from argument count zero. -/
def match_one (s : List Char) (p : Option (List Char)) : Bool × List (Nat × substring_t) :=
  match p with
  | none => (true, [])
  | some pp => matchOneF (pp.length + 1) s pp 0

/-- Embedding of struct match_token: a token id paired with a pattern, the
NULL pattern being none. -/
structure match_token_entry where
  token : Int
  pattern : Option (List Char)
deriving DecidableEq, Repr

/-- Embedding of match_token: walk the table and return the token of the
first entry whose pattern matches, accumulating every args write each
attempt performs.  Running off the end of the table (undefined behavior in
the source, prevented by the sentinel) is modelled as none. -/
def match_token (s : List Char) : List match_token_entry → Option (Int × List (Nat × substring_t))
  | [] => none
  | e :: rest =>
    let r := match_one s e.pattern
    if r.1 then some (e.token, r.2)
    else
      match match_token s rest with
      | some (t, ws) => some (t, r.2 ++ ws)
      | none => none

/-- Replay a list of writes of spans at indices onto an args array (a write
beyond the array bound would be the overflow the capacity check prevents;
List.set ignores it, and the safety claim shows no such write happens). -/
def applyWrites (a : List (Option substring_t)) (ws : List (Nat × substring_t)) : List (Option substring_t) :=
  ws.foldl (fun acc w => acc.set w.1 (some w.2)) a

/-- Embedding of match_number: the first component is the returned error
code, the second the value stored through the result pointer (none when the
call leaves the output untouched).  The allocOk flag stands for success of
the scratch-buffer malloc. -/
def match_number (allocOk : Bool) (s : substring_t) (base : Nat) : Int × Option Int :=
  if !allocOk then (-ENOMEM, none)
  else
    let r := strtol s.chars base
    if r.consumed = 0 then (-EINVAL, none)
    else if r.val < INT_MIN ∨ INT_MAX < r.val then (-ERANGE, none)
    else (0, some r.val)

/-- Embedding of match_int: match_number with base 0. -/
def match_int (allocOk : Bool) (s : substring_t) : Int × Option Int :=
  match_number allocOk s 0

/-- Embedding of match_octal: match_number with base 8. -/
def match_octal (allocOk : Bool) (s : substring_t) : Int × Option Int :=
  match_number allocOk s 8

/-- Embedding of match_hex: match_number with base 16. -/
def match_hex (allocOk : Bool) (s : substring_t) : Int × Option Int :=
  match_number allocOk s 16

/-- The return of match_wildcard after its loop: skip a single trailing star
and require the pattern to be exhausted. -/
def wildTail (p : List Char) : Bool :=
  match p with
  | [] => true
  | x :: rest => if x = '*' then rest.isEmpty else false

/-- Fuel-indexed embedding of the loop of match_wildcard.  The five
components of the state are the subject cursor s, the pattern cursor p, the
subject backtrack anchor str, the pattern backtrack anchor pat, and the
star flag; a mismatch with the flag set advances the subject anchor by one
and resets both cursors to the anchors. -/
def wildLoopF : Nat → List Char → List Char → List Char → List Char → Bool → Option Bool
  | 0, _, _, _, _, _ => none
  | fuel + 1, s, p, str, pat, star =>
    match s with
    | [] => some (wildTail p)
    | c :: s' =>
      match p with
      | [] =>
        if star then wildLoopF fuel (str.drop 1) pat (str.drop 1) pat star
        else some false
      | x :: p' =>
        if x = '?' then wildLoopF fuel s' p' str pat star
        else if x = '*' then
          if p' = [] then some true
          else wildLoopF fuel (c :: s') p' (c :: s') p' true
        else if x = c then wildLoopF fuel s' p' str pat star
        else if star then wildLoopF fuel (str.drop 1) pat (str.drop 1) pat star
        else some false

/-- Fuel bound for the wildcard loop, proved sufficient below: the pattern
cursor shrinks on every step that does not backtrack, and each backtrack
permanently shortens the subject anchor. -/
def wildFuel (pattern str : List Char) : Nat :=
  str.length * (pattern.length + 2) + pattern.length + 1

/-- Embedding of match_wildcard(pattern, str): run the loop from the
original cursors with the star flag clear. -/
def match_wildcard (pattern str : List Char) : Bool :=
  (wildLoopF (wildFuel pattern str) str pattern str pattern false).getD false

/-- Embedding of match_strlcpy: the first component is the content the call
writes into dest (the copied bytes followed by the NUL terminator, nothing
when size is zero), the second the returned untruncated source length. -/
def match_strlcpy (src : substring_t) (size : Nat) : List Char × Nat :=
  let ret := src.chars.length
  if size ≠ 0 then
    let len := if size ≤ ret then size - 1 else ret
    (src.chars.take len ++ [nulChar], ret)
  else ([], ret)

/-- Embedding of match_strdup: allocate length plus one bytes and bounded
copy into them; none when the allocation fails. -/
def match_strdup (allocOk : Bool) (s : substring_t) : Option (List Char) :=
  if allocOk then some (match_strlcpy s (s.chars.length + 1)).1 else none

/-- Glob semantics, written from the words of the spec: a star matches zero
or more characters, a question mark exactly one, any other character
matches itself, and the entire subject must match the entire pattern. -/
def globMatch : List Char → List Char → Bool
  | [], s => s.isEmpty
  | c :: p, s =>
    if c = '*' then
      globMatch p s ||
        (match s with
         | [] => false
         | _ :: s' => globMatch (c :: p) s')
    else
      match s with
      | [] => false
      | d :: s' => (c = '?' || c = d) && globMatch p s'
termination_by p s => (p.length, s.length)
decreasing_by
  all_goals simp_wf
  · exact Prod.Lex.left _ _ (Nat.lt_succ_self _)
  · exact Prod.Lex.right _ (by simp)
  · exact Prod.Lex.left _ _ (Nat.lt_succ_self _)

/-- Whether one pattern character matches one subject character when the
pattern character is not a star. -/
def unitMatch (c d : Char) : Bool := c = '?' || c = d

/-- Pointwise matching of a star-free pattern segment against a subject
segment of the same length. -/
def stepMatch : List Char → List Char → Bool
  | [], [] => true
  | a :: as, b :: bs => unitMatch a b && stepMatch as bs
  | _, _ => false

/-- Whether a pattern is free of two consecutive star characters. -/
def noConsecStars : List Char → Bool
  | [] => true
  | [_] => true
  | c1 :: c2 :: rest => !(c1 = '*' && c2 = '*') && noConsecStars (c2 :: rest)

/-! ### Supporting lemmas -/

theorem stepMatch_nil_left (t : List Char) : stepMatch [] t = true ↔ t = [] := by
  cases t <;> simp [stepMatch]

theorem bool_eq_of_iff {a b : Bool} (h : a = true ↔ b = true) : a = b := by
  cases a <;> cases b <;> simp_all

theorem strchrIdx_eq_none {l : List Char} {ch : Char} (h : ∀ c ∈ l, c ≠ ch) :
    strchrIdx l ch = none := by
  induction l with
  | nil => rfl
  | cons x xs ih =>
    simp only [strchrIdx, if_neg (h x (by simp))]
    rw [ih (fun c hc => h c (by simp [hc]))]
    rfl

/-! ### Claim theorems: string materialization and numeric extraction -/

/-- C7: match_strlcpy always returns the untruncated source length; when the
buffer size is nonzero it writes the first min(source length, size minus one)
data bytes followed by a NUL terminator. -/
theorem match_strlcpy_spec (src : substring_t) (size : Nat) :
    (match_strlcpy src size).2 = src.chars.length ∧
    (size ≠ 0 →
      (match_strlcpy src size).1 =
        src.chars.take (min src.chars.length (size - 1)) ++ [nulChar]) := by
  constructor
  · simp only [match_strlcpy]
    split <;> rfl
  · intro h
    simp only [match_strlcpy, if_pos h]
    have he : (if size ≤ src.chars.length then size - 1 else src.chars.length) =
        min src.chars.length (size - 1) := by
      split <;> omega
    rw [he]

/-- Witness for C7: a ten-byte substring copied into a four-byte buffer
writes three data bytes plus the terminator and reports length ten. -/
theorem match_strlcpy_spec_witness :
    (match_strlcpy ⟨"abcdefghij".toList⟩ 4).2 = 10 ∧
    (match_strlcpy ⟨"abcdefghij".toList⟩ 4).1 = "abc".toList ++ [nulChar] := by
  have h := match_strlcpy_spec ⟨"abcdefghij".toList⟩ 4
  refine ⟨by rw [h.1]; decide, by rw [h.2 (by decide)]; decide⟩

/-- C8: matching pattern foo=%s against subject foo=bar succeeds with the
single span bar, and match_strdup of any span (when allocation succeeds)
yields exactly the spanned characters followed by a NUL terminator. -/
theorem match_strdup_roundtrip :
    match_one ("foo=bar".toList) (some ("foo=%s".toList)) =
      (true, [(0, ⟨"bar".toList⟩)]) ∧
    ∀ sp : substring_t, match_strdup true sp = some (sp.chars ++ [nulChar]) := by
  constructor
  · decide
  · intro sp
    have h1 : sp.chars.length + 1 ≠ 0 := by omega
    have h2 : ¬ (sp.chars.length + 1 ≤ sp.chars.length) := by omega
    simp [match_strdup, match_strlcpy, h1, h2]

/-- C10: match_number writes through the result pointer only on the path
that returns zero; on every nonzero error return the output is untouched.
The wrappers match_int, match_octal and match_hex unfold to match_number,
so the same holds for them. -/
theorem match_number_no_write (ok : Bool) (sp : substring_t) (base : Nat)
    (h : (match_number ok sp base).1 ≠ 0) : (match_number ok sp base).2 = none := by
  simp only [match_number] at h ⊢
  split_ifs at h ⊢ <;> first | rfl | exact absurd rfl h

/-- Witness for C10: a failing parse leaves the output location unwritten. -/
theorem match_number_no_write_witness :
    (match_number true ⟨"xyz".toList⟩ 0).2 = none :=
  match_number_no_write true ⟨"xyz".toList⟩ 0 (by decide)

/-- C4: match_number returns zero and stores the parsed value exactly when
the strtol parse of the substring consumes at least one character and the
value lies within the signed-int range; it returns minus EINVAL when zero
characters were consumed, minus ERANGE when the value falls outside the
range, and minus ENOMEM when the scratch allocation fails.  match_int,
match_octal and match_hex are match_number at bases 0, 8 and 16. -/
theorem match_number_spec (ok : Bool) (sp : substring_t) (base : Nat)
    (_hbase : base = 0 ∨ base = 8 ∨ base = 16) :
    (ok = false → match_number ok sp base = (-ENOMEM, none)) ∧
    (ok = true →
      (((match_number ok sp base).1 = 0 ∧
          (match_number ok sp base).2 = some (strtol sp.chars base).val) ↔
        (1 ≤ (strtol sp.chars base).consumed ∧
          INT_MIN ≤ (strtol sp.chars base).val ∧
          (strtol sp.chars base).val ≤ INT_MAX)) ∧
      ((strtol sp.chars base).consumed = 0 →
        match_number ok sp base = (-EINVAL, none)) ∧
      (1 ≤ (strtol sp.chars base).consumed ∧
          ((strtol sp.chars base).val < INT_MIN ∨ INT_MAX < (strtol sp.chars base).val) →
        match_number ok sp base = (-ERANGE, none))) ∧
    match_int ok sp = match_number ok sp 0 ∧
    match_octal ok sp = match_number ok sp 8 ∧
    match_hex ok sp = match_number ok sp 16 := by
  refine ⟨?_, ?_, rfl, rfl, rfl⟩
  · intro h
    simp [match_number, h]
  · intro h
    subst h
    have heinval : ∀ hc : (strtol sp.chars base).consumed = 0,
        match_number true sp base = (-EINVAL, none) := by
      intro hc
      simp only [match_number]
      rw [if_neg (by simp), if_pos hc]
    have herange : ∀ _ : (strtol sp.chars base).consumed ≠ 0,
        ∀ hr : (strtol sp.chars base).val < INT_MIN ∨ INT_MAX < (strtol sp.chars base).val,
        match_number true sp base = (-ERANGE, none) := by
      intro hc hr
      simp only [match_number]
      rw [if_neg (by simp), if_neg hc, if_pos hr]
    have hok : ∀ _ : (strtol sp.chars base).consumed ≠ 0,
        ∀ _ : ¬ ((strtol sp.chars base).val < INT_MIN ∨ INT_MAX < (strtol sp.chars base).val),
        match_number true sp base = (0, some (strtol sp.chars base).val) := by
      intro hc hr
      simp only [match_number]
      rw [if_neg (by simp), if_neg hc, if_neg hr]
    refine ⟨?_, heinval, fun hcr => herange (by omega) hcr.2⟩
    constructor
    · intro hz
      by_cases hc : (strtol sp.chars base).consumed = 0
      · rw [heinval hc] at hz
        exact absurd hz.1 (by norm_num [EINVAL])
      · by_cases hr : (strtol sp.chars base).val < INT_MIN ∨ INT_MAX < (strtol sp.chars base).val
        · rw [herange hc hr] at hz
          exact absurd hz.1 (by norm_num [ERANGE])
        · exact ⟨by omega, by omega, by omega⟩
    · intro hc
      rw [hok (by omega) (by omega)]
      exact ⟨rfl, rfl⟩

/-- Witness for C4: the value one past INT_MAX yields the range error, and a
failed allocation yields the memory error. -/
theorem match_number_spec_witness :
    match_number true ⟨"2147483648".toList⟩ 0 = (-ERANGE, none) ∧
    match_number false ⟨"5".toList⟩ 0 = (-ENOMEM, none) := by
  have h1 := match_number_spec true ⟨"2147483648".toList⟩ 0 (Or.inl rfl)
  have h2 := match_number_spec false ⟨"5".toList⟩ 0 (Or.inl rfl)
  exact ⟨(h1.2.1 rfl).2.2 (by decide), h2.1 rfl⟩

/-- C3: the string placeholder of match_one fails exactly when the remaining
subject is empty, and otherwise records the span from the cursor of length
min(remaining length, width), the full remaining length when no width was
given; a width beyond the remaining length is clamped, not a failure. -/
theorem stepString_spec (w : Option Nat) (s : List Char) :
    (stepString w s = none ↔ s = []) ∧
    (s ≠ [] →
      stepString w s =
        some (⟨s.take (match w with | none => s.length | some ww => min s.length ww)⟩,
              s.drop (match w with | none => s.length | some ww => min s.length ww))) := by
  constructor
  · simp only [stepString]
    split
    · simp_all [List.length_eq_zero]
    · simp only [reduceCtorEq, false_iff]
      intro he
      simp_all
  · intro h
    have hl : s.length ≠ 0 := by simpa [List.length_eq_zero] using h
    simp only [stepString, if_neg hl]
    have he : (match w with
        | none => s.length
        | some ww => if s.length < ww then s.length else ww) =
        (match w with
        | none => s.length
        | some ww => min s.length ww) := by
      cases w with
      | none => rfl
      | some ww =>
        show (if s.length < ww then s.length else ww) = min s.length ww
        split <;> omega
    rw [he]

/-- Witness for C3: a width of ten against a three-character remainder is
clamped to the full remainder. -/
theorem stepString_spec_witness :
    stepString (some 10) ("abc".toList) = some (⟨"abc".toList⟩, []) := by
  have h := (stepString_spec (some 10) ("abc".toList)).2 (by decide)
  rw [h]
  decide

/-- C6 counterexample: the pattern consisting of the escaped percent has no
placeholder (the spec calls the double percent a literal-percent escape, not
a placeholder), yet matching it against the equal subject fails, because the
escape consumes two pattern characters against one subject character. -/
theorem match_one_literal_cex :
    ¬ (((match_one ("%%".toList) (some ("%%".toList))).1 = true) ↔
        ("%%".toList : List Char) = "%%".toList) := by
  decide

/-- C6 amended: for every pattern containing no percent character at all,
match_one succeeds exactly when the subject equals the pattern (a full match
of the whole subject, not a prefix match). -/
theorem match_one_literal (p s : List Char) (h : ∀ c ∈ p, c ≠ '%') :
    (match_one s (some p)).1 = true ↔ s = p := by
  show (matchOneF (p.length + 1) s p 0).1 = true ↔ s = p
  rw [matchOneF, strchrIdx_eq_none h]
  simp [eq_comm]

/-- Witness for C6: a plain literal pattern matches exactly itself. -/
theorem match_one_literal_witness :
    (match_one ("ro".toList) (some ("ro".toList))).1 = true :=
  (match_one_literal ("ro".toList) ("ro".toList) (by decide)).mpr rfl

/-! ### Write-trace lemmas for the pattern scanner -/

theorem matchOneF_writes_bound :
    ∀ fuel s p argc w, w ∈ (matchOneF fuel s p argc).2 → argc ≤ w.1 ∧ w.1 < MAX_OPT_ARGS := by
  intro fuel
  induction fuel with
  | zero => intro s p argc w hw; simp [matchOneF] at hw
  | succ n ih =>
    intro s p argc w hw
    simp only [matchOneF] at hw
    split at hw
    · simp at hw
    · split at hw
      · split at hw
        · split at hw
          · exact ih _ _ _ _ hw
          · simp at hw
        · split at hw
          · simp at hw
          · rename_i hcap
            split at hw
            all_goals
              first
              | (split at hw
                 · simp at hw
                 · rcases List.mem_cons.mp (by simpa using hw) with hweq | hwmem
                   · subst hweq
                     exact ⟨Nat.le_refl _, by omega⟩
                   · have h2 := ih _ _ _ _ hwmem
                     exact ⟨by omega, h2.2⟩)
              | simp at hw
      · simp at hw

theorem matchOneF_writes_at_capacity :
    ∀ fuel s p argc, MAX_OPT_ARGS ≤ argc → (matchOneF fuel s p argc).2 = [] := by
  intro fuel
  induction fuel with
  | zero => intro s p argc _; rfl
  | succ n ih =>
    intro s p argc hcap
    simp only [matchOneF]
    split
    · rfl
    · rw [if_pos hcap]
      split
      · split
        · split
          · exact ih _ _ _ hcap
          · rfl
        · rfl
      · rfl

theorem matchOneF_writes_consec :
    ∀ fuel s p argc,
      (matchOneF fuel s p argc).2.map Prod.fst =
        List.range' argc (matchOneF fuel s p argc).2.length := by
  intro fuel
  induction fuel with
  | zero => intro s p argc; rfl
  | succ n ih =>
    intro s p argc
    simp only [matchOneF]
    split
    · rfl
    · split
      · split
        · split
          · exact ih _ _ _
          · rfl
        · split
          · rfl
          · split
            all_goals
              first
              | (split
                 · rfl
                 · simp only [List.map_cons, List.length_cons, List.range'_succ]
                   rw [ih])
              | rfl
      · rfl

/-- C5: every write match_one performs lands at an index below
MAX_OPT_ARGS; once the argument count has reached the capacity the scanner
performs no further write at all; and a pattern attempting a seventh
placeholder (one more than the capacity) fails to match a subject that would
satisfy all its placeholders.  Combined, a pattern attempt never stores a
span outside indices zero through MAX_OPT_ARGS minus one. -/
theorem match_one_capacity :
    (∀ s p w, w ∈ (match_one s p).2 → w.1 < MAX_OPT_ARGS) ∧
    (∀ fuel s p argc, MAX_OPT_ARGS ≤ argc → (matchOneF fuel s p argc).2 = []) ∧
    (match_one ("aaaaaaa".toList) (some ("%1s%1s%1s%1s%1s%1s%1s".toList))).1 = false := by
  refine ⟨?_, matchOneF_writes_at_capacity, by decide⟩
  intro s p w hw
  cases p with
  | none => simp [match_one] at hw
  | some pp => exact (matchOneF_writes_bound _ _ _ _ _ hw).2

/-- Witness for C5: a concrete write index is below the capacity, and the
scanner started at the capacity records nothing. -/
theorem match_one_capacity_witness :
    ((0 : Nat), substring_t.mk ("x".toList)).1 < MAX_OPT_ARGS ∧
    (matchOneF 5 ("x".toList) ("%s".toList) MAX_OPT_ARGS).2 = [] := by
  have h := match_one_capacity
  exact ⟨h.1 ("x".toList) (some ("%s".toList)) (0, ⟨"x".toList⟩) (by decide),
    h.2.1 5 ("x".toList) ("%s".toList) MAX_OPT_ARGS (Nat.le_refl _)⟩

/-! ### Token-table matcher -/

theorem applyWrites_append (a : List (Option substring_t)) (ws1 ws2 : List (Nat × substring_t)) :
    applyWrites a (ws1 ++ ws2) = applyWrites (applyWrites a ws1) ws2 :=
  List.foldl_append _ _ _ _

theorem applyWrites_length (ws : List (Nat × substring_t)) :
    ∀ a, (applyWrites a ws).length = a.length := by
  induction ws with
  | nil => intro a; rfl
  | cons w ws ih =>
    intro a
    exact (ih (a.set w.1 (some w.2))).trans (List.length_set _ _ _)

theorem applyWrites_getElem_notmem (ws : List (Nat × substring_t)) :
    ∀ a i, (∀ w ∈ ws, w.1 ≠ i) → (applyWrites a ws)[i]? = a[i]? := by
  induction ws with
  | nil => intro a i _; rfl
  | cons w ws ih =>
    intro a i h
    have h1 : w.1 ≠ i := h w (by simp)
    exact (ih (a.set w.1 (some w.2)) i (fun w' hw' => h w' (by simp [hw']))).trans
      (List.getElem?_set_ne h1)

theorem applyWrites_consec (ws : List (Nat × substring_t)) :
    ∀ start a, ws.map Prod.fst = List.range' start ws.length →
      start + ws.length ≤ a.length →
      ∀ j, j < ws.length →
        (applyWrites a ws)[start + j]? = (ws[j]?).map (fun w => some w.2) := by
  induction ws with
  | nil =>
    intro start a _ _ j hj
    simp at hj
  | cons w ws ih =>
    intro start a hmap hlen j hj
    rw [List.length_cons, List.range'_succ] at hmap
    rw [List.map_cons] at hmap
    injection hmap with h1 h2
    rw [List.length_cons] at hlen
    cases j with
    | zero =>
      have hne : ∀ w' ∈ ws, w'.1 ≠ start := by
        intro w' hw'
        have hmem : w'.1 ∈ List.range' (start + 1) ws.length := by
          rw [← h2]
          exact List.mem_map_of_mem _ hw'
        rcases List.mem_range'.mp hmem with ⟨i, hi, heq⟩
        omega
      have hset : (a.set w.1 (some w.2))[start]? = some (some w.2) := by
        rw [h1]
        exact List.getElem?_set_self (by omega)
      simp only [Nat.add_zero]
      show (applyWrites (a.set w.1 (some w.2)) ws)[start]? = _
      rw [applyWrites_getElem_notmem ws _ _ hne, hset]
      simp
    | succ j' =>
      rw [List.length_cons] at hj
      have hrec := ih (start + 1) (a.set w.1 (some w.2)) h2
        (by rw [List.length_set]; omega) j' (by omega)
      show (applyWrites (a.set w.1 (some w.2)) ws)[start + (j' + 1)]? = _
      rw [show start + (j' + 1) = (start + 1) + j' by omega]
      rw [hrec]
      simp

theorem match_token_first_aux (s : List Char) :
    ∀ (pre : List match_token_entry) (sid : Int),
      ∃ e ws0,
        List.find? (fun e2 => (match_one s e2.pattern).1) (pre ++ [⟨sid, none⟩]) = some e ∧
        e ∈ pre ++ [⟨sid, none⟩] ∧
        match_token s (pre ++ [⟨sid, none⟩]) = some (e.token, ws0 ++ (match_one s e.pattern).2) := by
  intro pre
  induction pre with
  | nil =>
    intro sid
    refine ⟨⟨sid, none⟩, [], ?_, by simp, ?_⟩
    · exact List.find?_cons_of_pos _ rfl
    · rfl
  | cons e0 rest ih =>
    intro sid
    by_cases h0 : (match_one s e0.pattern).1 = true
    · refine ⟨e0, [], ?_, by simp, ?_⟩
      · exact List.find?_cons_of_pos _ h0
      · simp only [List.cons_append, match_token]
        rw [if_pos h0]
        simp
    · obtain ⟨e, ws0, hf, hm, ht⟩ := ih sid
      refine ⟨e, (match_one s e0.pattern).2 ++ ws0, ?_, ?_, ?_⟩
      · rw [List.cons_append]
        exact (@List.find?_cons_of_neg _ (fun e2 => (match_one s e2.pattern).1) e0
          (rest ++ [⟨sid, none⟩]) h0).trans hf
      · exact List.mem_cons_of_mem _ hm
      · simp only [List.cons_append, match_token, List.append_eq]
        rw [if_neg h0, ht]
        simp

/-- C1: on a table whose last entry is the sentinel with the NULL pattern,
match_token terminates with the token of the first entry in table order
whose pattern matches (the sentinel when no earlier entry does); that token
belongs to an entry present in the table; the winning entry writes its spans
last, so replaying every write of the whole scan onto the args array leaves
exactly the winning entry's spans at indices zero through its span count
minus one. -/
theorem match_token_first (s : List Char) (pre : List match_token_entry) (sid : Int) :
    ∃ e ws0,
      List.find? (fun e2 => (match_one s e2.pattern).1) (pre ++ [⟨sid, none⟩]) = some e ∧
      e ∈ pre ++ [⟨sid, none⟩] ∧
      match_token s (pre ++ [⟨sid, none⟩]) = some (e.token, ws0 ++ (match_one s e.pattern).2) ∧
      (applyWrites (List.replicate MAX_OPT_ARGS none) (ws0 ++ (match_one s e.pattern).2)).take
          (match_one s e.pattern).2.length =
        (match_one s e.pattern).2.map (fun w => some w.2) := by
  obtain ⟨e, ws0, hf, hm, ht⟩ := match_token_first_aux s pre sid
  refine ⟨e, ws0, hf, hm, ht, ?_⟩
  have hcons : (match_one s e.pattern).2.map Prod.fst =
      List.range' 0 (match_one s e.pattern).2.length := by
    cases hp : e.pattern with
    | none => simp [match_one]
    | some pp =>
      simp only [match_one]
      exact matchOneF_writes_consec _ _ _ _
  have hbound : ∀ w ∈ (match_one s e.pattern).2, w.1 < MAX_OPT_ARGS := by
    intro w hw
    cases hp : e.pattern with
    | none => rw [hp] at hw; simp [match_one] at hw
    | some pp =>
      rw [hp] at hw
      exact (matchOneF_writes_bound _ _ _ _ _ hw).2
  have hlen : (match_one s e.pattern).2.length ≤ MAX_OPT_ARGS := by
    by_contra hlt
    push_neg at hlt
    have hmem : ((match_one s e.pattern).2.length - 1) ∈
        (match_one s e.pattern).2.map Prod.fst := by
      rw [hcons]
      exact List.mem_range'.mpr ⟨(match_one s e.pattern).2.length - 1, by omega, by omega⟩
    rcases List.mem_map.mp hmem with ⟨w, hw, hfst⟩
    have := hbound w hw
    omega
  rw [applyWrites_append]
  have ha1len : (applyWrites (List.replicate MAX_OPT_ARGS none) ws0).length = MAX_OPT_ARGS := by
    rw [applyWrites_length, List.length_replicate]
  have hget := applyWrites_consec (match_one s e.pattern).2 0
    (applyWrites (List.replicate MAX_OPT_ARGS none) ws0) hcons (by omega)
  apply List.ext_getElem?
  intro n
  by_cases hn : n < (match_one s e.pattern).2.length
  · rw [List.getElem?_take, if_pos hn]
    have := hget n hn
    rw [Nat.zero_add] at this
    rw [this, List.getElem?_map]
  · rw [List.getElem?_take, if_neg hn]
    symm
    apply List.getElem?_eq_none
    rw [List.length_map]
    omega

/-! ### Wildcard loop termination -/


theorem wildLoopF_isSome :
    ∀ fuel s p str pat (star : Bool), s.length ≤ str.length → p.length ≤ pat.length + 1 →
      str.length * (pat.length + 2) + p.length + 1 ≤ fuel →
      (wildLoopF fuel s p str pat star).isSome = true := by
  intro fuel
  induction fuel with
  | zero =>
    intro s p str pat star _ _ hfuel
    omega
  | succ n ih =>
    intro s p str pat star hs hp hfuel
    rw [wildLoopF.eq_def]
    cases s with
    | nil => rfl
    | cons c s' =>
      dsimp only
      rw [List.length_cons] at hs
      have hstr1 : 1 ≤ str.length := by omega
      have hA : pat.length + 2 ≤ str.length * (pat.length + 2) :=
        Nat.le_mul_of_pos_left _ (by omega)
      have hsub : (str.length - 1) * (pat.length + 2) + (pat.length + 2) =
          str.length * (pat.length + 2) := by
        rw [Nat.sub_mul, Nat.one_mul]
        omega
      cases p with
      | nil =>
        dsimp only
        cases star with
        | false => rfl
        | true =>
          rw [if_pos rfl]
          apply ih
          · rw [List.length_drop]
          · omega
          · rw [List.length_drop]
            omega
      | cons x p' =>
        dsimp only
        rw [List.length_cons] at hp
        rw [List.length_cons] at hfuel
        by_cases hq : x = '?'
        · rw [if_pos hq]
          apply ih _ _ _ _ _ (by omega) (by omega) (by omega)
        · rw [if_neg hq]
          by_cases hst : x = '*'
          · rw [if_pos hst]
            by_cases hpe : p' = []
            · rw [if_pos hpe]
              rfl
            · rw [if_neg hpe]
              have hmul : (s'.length + 1) * (p'.length + 2) ≤
                  str.length * (pat.length + 2) :=
                Nat.mul_le_mul (by omega) (by omega)
              apply ih _ _ _ _ _ (by simp) (by omega) (by simp [List.length_cons]; omega)
          · rw [if_neg hst]
            by_cases hxc : x = c
            · rw [if_pos hxc]
              apply ih _ _ _ _ _ (by omega) (by omega) (by omega)
            · rw [if_neg hxc]
              cases star with
              | false => rfl
              | true =>
                simp only [if_pos rfl]
                apply ih
                · rw [List.length_drop]
                · omega
                · rw [List.length_drop]
                  omega

/-- C9: the wildcard matcher terminates on every finite pattern and finite
subject despite its greedy backtracking: the loop, run as a step-indexed
computation, reaches its answer within an explicit fuel bound polynomial in
the two input lengths, and that answer is the match_wildcard result. -/
theorem wildcard_terminates (pattern str : List Char) :
    wildLoopF (wildFuel pattern str) str pattern str pattern false =
      some (match_wildcard pattern str) := by
  have h := wildLoopF_isSome (wildFuel pattern str) str pattern str pattern false
    (Nat.le_refl _) (by omega) (Nat.le_refl _)
  unfold match_wildcard
  cases hh : wildLoopF (wildFuel pattern str) str pattern str pattern false with
  | none => rw [hh] at h; simp at h
  | some b => rfl

/-! ### Wildcard matcher versus glob semantics -/

theorem globMatch_nil_iff (p : List Char) :
    globMatch p [] = true ↔ p.all (fun c => decide (c = '*')) = true := by
  induction p with
  | nil => simp [globMatch]
  | cons c p ih =>
    by_cases hc : c = '*'
    · subst hc
      simp [globMatch, ih]
    · simp [globMatch, hc]

theorem globMatch_star_last (t : List Char) : globMatch ['*'] t = true := by
  induction t with
  | nil => simp [globMatch]
  | cons c t ih =>
    simp [globMatch, ih]

theorem globMatch_star_iff (q : List Char) :
    ∀ t, globMatch ('*' :: q) t = true ↔ ∃ k, k ≤ t.length ∧ globMatch q (t.drop k) = true := by
  intro t
  induction t with
  | nil =>
    simp [globMatch]
  | cons c t ih =>
    constructor
    · intro h
      rw [show globMatch ('*' :: q) (c :: t) =
          (globMatch q (c :: t) || globMatch ('*' :: q) t) by simp [globMatch]] at h
      rcases Bool.or_eq_true_iff.mp h with h1 | h2
      · exact ⟨0, by omega, h1⟩
      · rcases ih.mp h2 with ⟨k, hk, hg⟩
        exact ⟨k + 1, by simp; omega, hg⟩
    · rintro ⟨k, hk, hg⟩
      rw [show globMatch ('*' :: q) (c :: t) =
          (globMatch q (c :: t) || globMatch ('*' :: q) t) by simp [globMatch]]
      cases k with
      | zero => simp_all
      | succ k' =>
        apply Bool.or_eq_true_iff.mpr
        right
        exact ih.mpr ⟨k', by simp at hk; omega, hg⟩

theorem globMatch_star_absorb (q t : List Char) (k : Nat)
    (h : globMatch ('*' :: q) (t.drop k) = true) : globMatch ('*' :: q) t = true := by
  rcases (globMatch_star_iff q (t.drop k)).mp h with ⟨j, hj, hg⟩
  rw [List.drop_drop] at hg
  rw [List.length_drop] at hj
  apply (globMatch_star_iff q t).mpr
  by_cases hk : k + j ≤ t.length
  · exact ⟨k + j, hk, hg⟩
  · refine ⟨t.length, by omega, ?_⟩
    rw [List.drop_length]
    rw [List.drop_eq_nil_of_le (by omega)] at hg
    exact hg

theorem stepMatch_length : ∀ a b : List Char, stepMatch a b = true → a.length = b.length := by
  intro a
  induction a with
  | nil =>
    intro b h
    cases b with
    | nil => rfl
    | cons x xs => simp [stepMatch] at h
  | cons x xs ih =>
    intro b h
    cases b with
    | nil => simp [stepMatch] at h
    | cons y ys =>
      simp only [stepMatch, Bool.and_eq_true] at h
      simp [ih ys h.2]

theorem stepMatch_snoc {a b : List Char} {x c : Char}
    (h : stepMatch a b = true) (hx : unitMatch x c = true) :
    stepMatch (a ++ [x]) (b ++ [c]) = true := by
  induction a generalizing b with
  | nil =>
    cases b with
    | nil => simp [stepMatch, hx]
    | cons y ys => simp [stepMatch] at h
  | cons y ys ih =>
    cases b with
    | nil => simp [stepMatch] at h
    | cons z zs =>
      simp only [stepMatch, Bool.and_eq_true] at h
      simp only [List.cons_append, stepMatch, Bool.and_eq_true]
      exact ⟨h.1, ih h.2⟩

theorem gM_starfree_append :
    ∀ (al r t : List Char), al.all (fun c => !decide (c = '*')) = true →
      (globMatch (al ++ r) t = true ↔
        ∃ t1 t2, t = t1 ++ t2 ∧ stepMatch al t1 = true ∧ globMatch r t2 = true) := by
  intro al
  induction al with
  | nil =>
    intro r t _
    constructor
    · intro h
      exact ⟨[], t, rfl, rfl, h⟩
    · rintro ⟨t1, t2, heq, hsm, hg⟩
      have h1 := (stepMatch_nil_left t1).mp hsm
      subst h1
      simp only [List.nil_append] at heq
      subst heq
      exact hg
  | cons x al' ih =>
    intro r t hall
    simp only [List.all_cons, Bool.and_eq_true, Bool.not_eq_eq_eq_not, Bool.not_true,
      decide_eq_false_iff_not] at hall
    obtain ⟨hx, hall'⟩ := hall
    cases t with
    | nil =>
      constructor
      · intro h
        rw [show globMatch ((x :: al') ++ r) [] = false by
          simp [globMatch, hx]] at h
        exact absurd h (by simp)
      · rintro ⟨t1, t2, heq, hsm, hg⟩
        rcases List.append_eq_nil.mp heq.symm with ⟨h2, _⟩
        subst h2
        simp [stepMatch] at hsm
    | cons d t' =>
      have hlhs : globMatch ((x :: al') ++ r) (d :: t') =
          (unitMatch x d && globMatch (al' ++ r) t') := by
        simp [globMatch, hx, unitMatch]
      rw [hlhs]
      constructor
      · intro h
        rw [Bool.and_eq_true] at h
        obtain ⟨hu, hg⟩ := h
        rcases (ih r t' (by simpa using hall')).mp hg with ⟨t1, t2, heq, hsm, hg2⟩
        refine ⟨d :: t1, t2, by simp [heq], ?_, hg2⟩
        simp only [stepMatch, Bool.and_eq_true]
        exact ⟨hu, hsm⟩
      · rintro ⟨t1, t2, heq, hsm, hg⟩
        cases t1 with
        | nil => simp [stepMatch] at hsm
        | cons e t1' =>
          simp only [List.cons_append, List.cons.injEq] at heq
          obtain ⟨he, heq'⟩ := heq
          subst he
          simp only [stepMatch, Bool.and_eq_true] at hsm
          rw [Bool.and_eq_true]
          refine ⟨hsm.1, ?_⟩
          exact (ih r t' (by simpa using hall')).mpr ⟨t1', t2, heq', hsm.2, hg⟩

theorem gM_starfree_take_drop (al r str : List Char)
    (hal : al.all (fun c => !decide (c = '*')) = true)
    (hsm : stepMatch al (str.take al.length) = true) :
    globMatch (al ++ r) str = globMatch r (str.drop al.length) := by
  apply Bool.eq_iff_iff.mpr
  constructor
  · intro h
    rcases (gM_starfree_append al r str hal).mp h with ⟨t1, t2, heq, hsm', hg⟩
    have hl1 : al.length = t1.length := stepMatch_length _ _ hsm'
    have ht2 : t2 = str.drop al.length := by
      rw [heq, hl1, List.drop_left]
    rw [← ht2]
    exact hg
  · intro h
    exact (gM_starfree_append al r str hal).mpr
      ⟨str.take al.length, str.drop al.length, (List.take_append_drop _ _).symm, hsm, h⟩

theorem noConsecStars_tail {c : Char} {l : List Char}
    (h : noConsecStars (c :: l) = true) : noConsecStars l = true := by
  cases l with
  | nil => rfl
  | cons c2 rest =>
    simp only [noConsecStars, Bool.and_eq_true] at h
    exact h.2

theorem noConsecStars_append_right :
    ∀ a b : List Char, noConsecStars (a ++ b) = true → noConsecStars b = true := by
  intro a
  induction a with
  | nil => intro b h; exact h
  | cons x a' ih =>
    intro b h
    rw [List.cons_append] at h
    exact ih b (noConsecStars_tail h)

theorem wildTail_eq_globMatch_nil (p : List Char) (h : noConsecStars p = true) :
    wildTail p = globMatch p [] := by
  cases p with
  | nil => simp [wildTail, globMatch]
  | cons x rest =>
    cases rest with
    | nil =>
      by_cases hx : x = '*'
      · subst hx
        simp [wildTail, globMatch]
      · simp [wildTail, globMatch, hx]
    | cons y rest' =>
      have hne : ¬ (x = '*' ∧ y = '*') := by
        intro ⟨h1, h2⟩
        subst h1; subst h2
        simp [noConsecStars] at h
      have hrhs : globMatch (x :: y :: rest') [] = false := by
        cases hgm : globMatch (x :: y :: rest') [] with
        | false => rfl
        | true =>
          have := (globMatch_nil_iff _).mp hgm
          simp only [List.all_cons, Bool.and_eq_true, decide_eq_true_eq] at this
          exact absurd ⟨this.1, this.2.1⟩ hne
      rw [hrhs]
      by_cases hx : x = '*'
      · subst hx
        simp [wildTail]
      · simp [wildTail, hx]

theorem glob_backtrack (pat str : List Char) (hne : str ≠ [])
    (hfalse : globMatch pat str = false) :
    globMatch ('*' :: pat) str = globMatch ('*' :: pat) (str.drop 1) := by
  cases str with
  | nil => exact absurd rfl hne
  | cons d str' =>
    rw [show globMatch ('*' :: pat) (d :: str') =
        (globMatch pat (d :: str') || globMatch ('*' :: pat) str') by simp [globMatch]]
    rw [hfalse]
    simp

theorem take_snoc_of_drop {str s' : List Char} {c : Char} {m : Nat}
    (h : str.drop m = c :: s') :
    str.take (m + 1) = str.take m ++ [c] ∧ str.drop (m + 1) = s' := by
  constructor
  · rw [List.take_add, h]
    rfl
  · rw [← List.drop_drop, h]
    rfl

theorem stepMatch_extend {al str s' : List Char} {c x : Char}
    (hsm : stepMatch al (str.take al.length) = true)
    (hd : str.drop al.length = c :: s')
    (hx : unitMatch x c = true) :
    stepMatch (al ++ [x]) (str.take (al ++ [x]).length) = true := by
  rw [List.length_append, List.length_cons, List.length_nil, Nat.zero_add]
  obtain ⟨h1, _⟩ := take_snoc_of_drop hd
  rw [h1]
  exact stepMatch_snoc hsm hx

theorem wildLoopF_glob :
    ∀ fuel s p str pat (star : Bool) (al : List Char),
      str.length * (pat.length + 2) + p.length + 1 ≤ fuel →
      pat = al ++ p →
      al.all (fun c => !decide (c = '*')) = true →
      stepMatch al (str.take al.length) = true →
      s = str.drop al.length →
      noConsecStars (if star then '*' :: pat else pat) = true →
      wildLoopF fuel s p str pat star =
        some (globMatch (if star then '*' :: pat else pat) str) := by
  intro fuel
  induction fuel with
  | zero =>
    intro s p str pat star al hfuel _ _ _ _ _
    omega
  | succ n ih =>
    intro s p str pat star al hfuel hpat hal hsm hs hnc
    have hlen_take : al.length = (str.take al.length).length := stepMatch_length _ _ hsm
    have hal_le : al.length ≤ str.length := by
      rw [List.length_take] at hlen_take
      omega
    have hpatlen : pat.length = al.length + p.length := by
      rw [hpat, List.length_append]
    rw [wildLoopF.eq_def]
    cases s with
    | nil =>
      have hstrlen : al.length = str.length := by
        have h0 := congrArg List.length hs
        rw [List.length_drop] at h0
        simp at h0
        omega
      have hnp : noConsecStars p = true := by
        apply noConsecStars_append_right al
        rw [← hpat]
        cases star with
        | false => simpa using hnc
        | true => exact noConsecStars_tail (by simpa using hnc)
      have hkey : globMatch (if star then '*' :: pat else pat) str = globMatch p [] := by
        cases star with
        | false =>
          rw [if_neg (by simp), hpat,
            gM_starfree_take_drop al p str hal hsm, hstrlen, List.drop_length]
        | true =>
          rw [if_pos rfl]
          apply Bool.eq_iff_iff.mpr
          constructor
          · intro h
            rcases (globMatch_star_iff pat str).mp h with ⟨k, hk, hg⟩
            rw [hpat] at hg
            rcases (gM_starfree_append al p _ hal).mp hg with ⟨t1, t2, heq2, hsm2, hg2⟩
            have hl1 : al.length = t1.length := stepMatch_length _ _ hsm2
            have hlen2 := congrArg List.length heq2
            rw [List.length_drop, List.length_append] at hlen2
            have ht2 : t2 = [] := List.length_eq_zero.mp (by omega)
            subst ht2
            exact hg2
          · intro h
            apply (globMatch_star_iff pat str).mpr
            refine ⟨0, by omega, ?_⟩
            rw [List.drop_zero, hpat, gM_starfree_take_drop al p str hal hsm,
              hstrlen, List.drop_length]
            exact h
      rw [hkey, ← wildTail_eq_globMatch_nil p hnp]
    | cons c s' =>
      have hds : str.drop al.length = c :: s' := hs.symm
      have hstr_pos : 1 ≤ str.length := by
        have h0 := congrArg List.length hs
        rw [List.length_drop, List.length_cons] at h0
        omega
      have hstr_ne : str ≠ [] := by
        intro h0
        rw [h0] at hds
        simp at hds
      have hA : pat.length + 2 ≤ str.length * (pat.length + 2) :=
        Nat.le_mul_of_pos_left _ (by omega)
      have hsub : (str.length - 1) * (pat.length + 2) + (pat.length + 2) =
          str.length * (pat.length + 2) := by
        rw [Nat.sub_mul, Nat.one_mul]
        omega
      dsimp only
      cases p with
      | nil =>
        have hfalse : globMatch pat str = false := by
          have hpa : pat = al := by simpa using hpat
          rw [hpa, show al = al ++ ([] : List Char) by simp,
            gM_starfree_take_drop al [] str hal hsm, hds]
          simp [globMatch]
        dsimp only
        cases star with
        | false =>
          rw [if_neg (by simp)]
          rw [if_neg (by simp)] at hnc ⊢
          rw [hfalse]
        | true =>
          rw [if_pos rfl] at hnc ⊢
          rw [if_pos rfl]
          rw [glob_backtrack pat str hstr_ne hfalse]
          apply ih _ _ _ _ _ []
          · rw [List.length_drop]
            simp only [List.length_nil] at hfuel
            omega
          · simp
          · rfl
          · simp [stepMatch]
          · simp
          · rw [if_pos rfl]
            exact hnc
      | cons x p' =>
        rw [List.length_cons] at hfuel
        have hplen : p'.length + 1 ≤ pat.length := by
          rw [hpatlen, List.length_cons]
          omega
        dsimp only
        by_cases hq : x = '?'
        · rw [if_pos hq]
          obtain ⟨htk, hdr⟩ := take_snoc_of_drop hds
          apply ih _ _ _ _ _ (al ++ [x])
          · omega
          · rw [hpat, List.append_cons]
          · rw [List.all_append]
            simp [hal, hq]
          · exact stepMatch_extend hsm hds (by simp [unitMatch, hq])
          · rw [List.length_append]
            simp only [List.length_cons, List.length_nil, Nat.zero_add]
            exact hdr.symm
          · exact hnc
        · rw [if_neg hq]
          by_cases hst : x = '*'
          · rw [if_pos hst]
            subst hst
            by_cases hpe : p' = []
            · rw [if_pos hpe]
              subst hpe
              have hkey : globMatch (if star then '*' :: pat else pat) str = true := by
                cases star with
                | false =>
                  rw [if_neg (by simp), hpat,
                    gM_starfree_take_drop al ['*'] str hal hsm]
                  exact globMatch_star_last _
                | true =>
                  rw [if_pos rfl]
                  apply (globMatch_star_iff pat str).mpr
                  refine ⟨0, by omega, ?_⟩
                  rw [List.drop_zero, hpat,
                    gM_starfree_take_drop al ['*'] str hal hsm]
                  exact globMatch_star_last _
              rw [hkey]
            · rw [if_neg hpe]
              have hnc' : noConsecStars ('*' :: p') = true := by
                cases star with
                | false =>
                  rw [if_neg (by simp)] at hnc
                  exact noConsecStars_append_right al ('*' :: p') (by rw [← hpat]; exact hnc)
                | true =>
                  rw [if_pos rfl] at hnc
                  apply noConsecStars_append_right ('*' :: al)
                  rw [show ('*' :: al) ++ ('*' :: p') = '*' :: (al ++ '*' :: p') by simp]
                  rw [← hpat]
                  exact hnc
              have hkey : globMatch (if star then '*' :: pat else pat) str =
                  globMatch ('*' :: p') (c :: s') := by
                cases star with
                | false =>
                  rw [if_neg (by simp), hpat,
                    gM_starfree_take_drop al ('*' :: p') str hal hsm, hds]
                | true =>
                  rw [if_pos rfl]
                  apply Bool.eq_iff_iff.mpr
                  constructor
                  · intro h
                    rcases (globMatch_star_iff pat str).mp h with ⟨k, hk, hg⟩
                    rw [hpat] at hg
                    rcases (gM_starfree_append al ('*' :: p') _ hal).mp hg with
                      ⟨t1, t2, heq2, hsm2, hg2⟩
                    have hl1 : al.length = t1.length := stepMatch_length _ _ hsm2
                    have ht2 : t2 = (c :: s').drop k := by
                      have : t2 = (str.drop k).drop t1.length := by
                        rw [heq2, List.drop_left]
                      rw [this, List.drop_drop, ← hl1, Nat.add_comm,
                        ← List.drop_drop, hds]
                    rw [ht2] at hg2
                    exact globMatch_star_absorb p' (c :: s') k hg2
                  · intro h
                    apply (globMatch_star_iff pat str).mpr
                    refine ⟨0, by omega, ?_⟩
                    rw [List.drop_zero, hpat,
                      gM_starfree_take_drop al ('*' :: p') str hal hsm, hds]
                    exact h
              rw [hkey]
              apply ih _ _ _ _ _ []
              · have hmul : (s'.length + 1) * (p'.length + 2) ≤
                    str.length * (pat.length + 2) :=
                  Nat.mul_le_mul (by
                    have h0 := congrArg List.length hs
                    rw [List.length_drop, List.length_cons] at h0
                    omega) (by omega)
                rw [List.length_cons]
                omega
              · simp
              · rfl
              · simp [stepMatch]
              · simp
              · rw [if_pos rfl]
                exact hnc'
          · rw [if_neg hst]
            by_cases hxc : x = c
            · rw [if_pos hxc]
              obtain ⟨htk, hdr⟩ := take_snoc_of_drop hds
              apply ih _ _ _ _ _ (al ++ [x])
              · omega
              · rw [hpat, List.append_cons]
              · rw [List.all_append]
                simp [hal, hst]
              · exact stepMatch_extend hsm hds (by simp [unitMatch, hxc])
              · rw [List.length_append]
                simp only [List.length_cons, List.length_nil, Nat.zero_add]
                exact hdr.symm
              · exact hnc
            · rw [if_neg hxc]
              have hfalse : globMatch pat str = false := by
                rw [hpat, gM_starfree_take_drop al (x :: p') str hal hsm, hds]
                simp [globMatch, hst, hq, hxc]
              cases star with
              | false =>
                rw [if_neg (by simp)]
                rw [if_neg (by simp)] at hnc ⊢
                rw [hfalse]
              | true =>
                rw [if_pos rfl] at hnc ⊢
                rw [if_pos rfl]
                rw [glob_backtrack pat str hstr_ne hfalse]
                apply ih _ _ _ _ _ []
                · rw [List.length_drop]
                  omega
                · simp
                · rfl
                · simp [stepMatch]
                · simp
                · rw [if_pos rfl]
                  exact hnc

/-- C2 counterexample: the claimed equivalence with whole-string glob
semantics fails as stated: the loop exit of match_wildcard skips only a
single trailing star, so the pattern of two stars does not match the empty
subject even though it matches under glob semantics (star matches zero
characters, twice). -/
theorem match_wildcard_cex :
    match_wildcard ("**".toList) ("".toList) = false ∧
    globMatch ("**".toList) ("".toList) = true := by
  constructor
  · decide
  · exact (globMatch_nil_iff ("**".toList)).mpr (by decide)

/-- C2 amended: for every pattern free of two consecutive star characters
(all the examples of the claim are such patterns) and every subject,
match_wildcard returns exactly the whole-string glob semantics: star matches
zero or more characters, question mark exactly one, and the entire subject
must match the entire pattern, not a prefix. -/
theorem match_wildcard_glob (p s : List Char) (h : noConsecStars p = true) :
    match_wildcard p s = globMatch p s := by
  have hm := wildLoopF_glob (wildFuel p s) s p s p false []
    (by unfold wildFuel; omega) (by simp) rfl rfl rfl (by simpa using h)
  unfold match_wildcard
  rw [hm]
  simp

/-- Witness for C2: the first example of the claim, checked through the
amended equivalence. -/
theorem match_wildcard_glob_witness :
    match_wildcard ("a*c".toList) ("abc".toList) = true ∧
    globMatch ("a*c".toList) ("abc".toList) = true := by
  have h := match_wildcard_glob ("a*c".toList) ("abc".toList) (by decide)
  have h1 : match_wildcard ("a*c".toList) ("abc".toList) = true := by decide
  exact ⟨h1, h.symm.trans h1⟩
